import Mathlib

/-!
Verification development for the agentic tool-orchestration engine of
`app.py` (YouTube content analyzer backend).

The engine consists of:
* `call_gemini` (app.py 707-847): conversation bookkeeping, prompt building,
  directive detection (`"TOOL:"` marker), directive extraction
  (`TOOL: (\w+)\nPARAMS: ({.*})` with DOTALL), and the multi-stage parameter
  repair pipeline (778-813);
* `execute_tool_call` (app.py 850-874): registry lookup and failure wrapping;
* `analyze_video` (app.py 1170-1251): the bounded orchestration flow
  (at most three model calls, at most two tool invocations);
* the module-level `conversation_history` dict (app.py 88), modelled as a
  total map from session id to an ordered list of turns.

Strings manipulated by the regex pipeline are modelled as `List Char`; each
`re.sub` is compiled to a single left-to-right scan (`rewriteScanF`) with a
head matcher per pattern, following the exact backtracking behaviour of the
Python patterns on their (literal / character-class) structure.
-/

namespace YTA

/-- Double-quote character (written via code point to keep source scanners happy). -/
def qc : Char := Char.ofNat 34

/-- Single-quote / apostrophe character. -/
def ap : Char := Char.ofNat 39

/-- Backslash character. -/
def bs : Char := Char.ofNat 92

/-- Left brace character. -/
def lb : Char := Char.ofNat 123

/-- Right brace character. -/
def rb : Char := Char.ofNat 125

/-- Newline character. -/
def nl : Char := Char.ofNat 10

/-- Characters of a string literal. -/
def strL (s : String) : List Char := s.data

/-- Decode helper for test inputs: `%` stands for a double quote.  Lets concrete
JSON-ish inputs be written without quote characters inside string literals. -/
def J (s : String) : List Char := s.data.map (fun c => if c = '%' then qc else c)

/-- The `\w` regex class (ASCII word character: letter, digit or underscore). -/
def isW (c : Char) : Bool := c.isAlphanum || c = '_'

/-- Boolean test for the double-quote character. -/
def eqQcB (c : Char) : Bool := c == qc

/-- Boolean test for any character other than the double quote. -/
def neQcB (c : Char) : Bool := c != qc

/-- Boolean test for the space character. -/
def eqSpaceB (c : Char) : Bool := c == ' '

/-- One left-to-right pass of `re.sub`: at each position the head matcher `f` is
tried; `f l = some (rep, k)` means the match at the head of `l` consumes `k + 1`
characters and is replaced by `rep` (every pattern below consumes at least one
character), after which scanning resumes after the consumed characters;
`f l = none` means no match at this position and the scan advances one
character.  `fuel = l.length` always suffices, so the fuel-exhaustion branch is
never taken on the actual argument. -/
def rewriteScanF (f : List Char → Option (List Char × Nat)) : Nat → List Char → List Char
  | _, [] => []
  | 0, l => l
  | fuel + 1, c :: rest =>
    match f (c :: rest) with
    | some (rep, k) => rep ++ rewriteScanF f fuel (rest.drop k)
    | none => c :: rewriteScanF f fuel rest

/-- `re.sub` over the whole input. -/
def rewriteScan (f : List Char → Option (List Char × Nat)) (l : List Char) : List Char :=
  rewriteScanF f l.length l

/-- app.py 779: `tool_params_str.replace("'", '"')`. -/
def replQuotes (l : List Char) : List Char := l.map (fun c => if c = ap then qc else c)

/-- Literal pattern `": ""https"://` of app.py 783 (the `https` alternative of
`": ""(https?)"://`, tried first because `s?` is greedy). -/
def pref2s : List Char := [qc, ':', ' ', qc, qc, 'h', 't', 't', 'p', 's', qc, ':', '/', '/']

/-- Replacement `": "https://` for `pref2s`. -/
def rep2s : List Char := [qc, ':', ' ', qc, 'h', 't', 't', 'p', 's', ':', '/', '/']

/-- Literal pattern `": ""http"://` of app.py 783 (the `http` alternative). -/
def pref2h : List Char := [qc, ':', ' ', qc, qc, 'h', 't', 't', 'p', qc, ':', '/', '/']

/-- Replacement `": "http://` for `pref2h`. -/
def rep2h : List Char := [qc, ':', ' ', qc, 'h', 't', 't', 'p', ':', '/', '/']

/-- Head matcher for app.py 783: `re.sub(r'": ""(https?)"://', r'": "\1://', s)`.
A pure literal pattern (with the greedy optional `s`). -/
def m2 (l : List Char) : Option (List Char × Nat) :=
  if pref2s.isPrefixOf l then some (rep2s, 13)
  else if pref2h.isPrefixOf l then some (rep2h, 12)
  else none

/-- The scheme part `https?://` (greedy `s?`, so `https://` is tried first):
returns the matched characters and the remainder. -/
def stripScheme (l : List Char) : Option (List Char × List Char) :=
  if (['h', 't', 't', 'p', 's', ':', '/', '/'] : List Char).isPrefixOf l then
    some (['h', 't', 't', 'p', 's', ':', '/', '/'], l.drop 8)
  else if (['h', 't', 't', 'p', ':', '/', '/'] : List Char).isPrefixOf l then
    some (['h', 't', 't', 'p', ':', '/', '/'], l.drop 7)
  else none

/-- Head matcher for app.py 786: `re.sub(r'": "+"(https?://[^"]+)"+"', r'": "\1"', s)`.
`"+"` (greedy one-or-more quotes followed by a literal quote) consumes exactly a
maximal quote run of length at least two; `[^"]+` consumes a maximal nonempty
run of non-quote characters (no backtracking into it can succeed since a quote
must follow). -/
def m3 (l : List Char) : Option (List Char × Nat) :=
  match l with
  | c1 :: c2 :: c3 :: rest =>
    if c1 = qc ∧ c2 = ':' ∧ c3 = ' ' then
      let q1 := (rest.takeWhile eqQcB).length
      if 2 ≤ q1 then
        match stripScheme (rest.dropWhile eqQcB) with
        | some (sch, rest2) =>
          let r := rest2.takeWhile neQcB
          let q2 := ((rest2.dropWhile neQcB).takeWhile eqQcB).length
          if r ≠ [] ∧ 2 ≤ q2 then
            some ([qc, ':', ' ', qc] ++ sch ++ r ++ [qc],
              3 + q1 + sch.length + r.length + q2 - 1)
          else none
        | none => none
      else none
    else none
  | _ => none

/-- Head matcher for app.py 789: `re.sub(r'": +"([^"]+)"', r'": "\1"', s)`.
` +` consumes a maximal nonempty space run (a quote must follow); `[^"]+`
consumes a maximal nonempty non-quote run, and the closing quote must exist. -/
def m4 (l : List Char) : Option (List Char × Nat) :=
  match l with
  | c1 :: c2 :: rest =>
    if c1 = qc ∧ c2 = ':' then
      let sp := rest.takeWhile eqSpaceB
      if sp ≠ [] ∧ (rest.dropWhile eqSpaceB).head? = some qc then
        let rest2 := (rest.dropWhile eqSpaceB).tail
        let r := rest2.takeWhile neQcB
        if r ≠ [] ∧ rest2.dropWhile neQcB ≠ [] then
          some ([qc, ':', ' ', qc] ++ r ++ [qc], 3 + sp.length + r.length)
        else none
      else none
    else none
  | _ => none

/-- Head matcher for app.py 792: `re.sub(r'(\w+):', r'"\1":', s)`.  A match at a
position exists iff the position starts a word-character run whose maximal
extent is immediately followed by `:` (backtracking into the run cannot place
the `:` earlier). -/
def m5 (l : List Char) : Option (List Char × Nat) :=
  match l with
  | c :: _ =>
    if isW c then
      match l.dropWhile isW with
      | d :: _ =>
        if d = ':' then
          some (qc :: (l.takeWhile isW ++ [qc, ':']), (l.takeWhile isW).length)
        else none
      | [] => none
    else none
  | [] => none

/-- The parameter-cleaning cascade of app.py 778-795 (quote-style replacement
followed by the four `re.sub` stages, in source order). -/
def cleanParams (l : List Char) : List Char :=
  rewriteScan m5 (rewriteScan m4 (rewriteScan m3 (rewriteScan m2 (replQuotes l))))

/-- JSON whitespace accepted by `json.loads` between tokens. -/
def isJWs (c : Char) : Bool := c = ' ' || c = Char.ofNat 9 || c = nl || c = Char.ofNat 13

/-- Skip JSON whitespace. -/
def skipWs (l : List Char) : List Char := l.dropWhile isJWs

/-- Body of a JSON string after the opening quote: plain characters up to the
closing quote.  This subset rejects backslash escapes and raw control
characters, which none of the parameter blocks of this development contain
(`json.loads` agrees with it on that domain). -/
def parseJStringF : Nat → List Char → Option (List Char × List Char)
  | 0, _ => none
  | _, [] => none
  | fuel + 1, c :: rest =>
    if c = qc then some ([], rest)
    else if c = bs then none
    else if c.toNat < 32 then none
    else (parseJStringF fuel rest).map (fun p => (c :: p.1, p.2))

/-- A JSON string token: opening quote, body, closing quote. -/
def parseJString (l : List Char) : Option (List Char × List Char) :=
  match l with
  | c :: rest => if c = qc then parseJStringF rest.length rest else none
  | [] => none

/-- The members of a JSON object (`"key": "value"` pairs separated by commas),
restricted to string values — the shape every parameter block of this engine
takes.  After the last pair the unconsumed remainder is returned.  Each
recursive step consumes at least one character, so `fuel` bounded below by the
input length never runs out. -/
def parseMembersF : Nat → List Char → Option (List (List Char × List Char) × List Char)
  | 0, _ => none
  | fuel + 1, l =>
    match parseJString l with
    | none => none
    | some (k, rest) =>
      match skipWs rest with
      | c :: rest2 =>
        if c = ':' then
          match parseJString (skipWs rest2) with
          | none => none
          | some (v, rest3) =>
            match skipWs rest3 with
            | c2 :: rest4 =>
              if c2 = ',' then
                (parseMembersF fuel (skipWs rest4)).map (fun p => ((k, v) :: p.1, p.2))
              else some ([(k, v)], c2 :: rest4)
            | [] => some ([(k, v)], [])
        else none
      | [] => none

/-- `json.loads` on the flat string-to-string object subset: a top-level object
whose keys and values are escape-free strings, with arbitrary surrounding JSON
whitespace; the whole input must be consumed. -/
def jsonLoads (l : List Char) : Option (List (List Char × List Char)) :=
  match skipWs l with
  | c :: rest =>
    if c = lb then
      match skipWs rest with
      | c2 :: rest2 =>
        if c2 = rb then (if (skipWs rest2).isEmpty then some [] else none)
        else
          match parseMembersF (rest2.length + 1) (c2 :: rest2) with
          | some (ps, rem) =>
            match rem with
            | c3 :: rest3 => if c3 = rb ∧ (skipWs rest3).isEmpty then some ps else none
            | [] => none
          | none => none
      | [] => none
    else none
  | [] => none

/-- The Python regex class `\s` (whitespace) used at app.py 804. -/
def isPyWs (c : Char) : Bool :=
  c = ' ' || c = Char.ofNat 9 || c = nl || c = Char.ofNat 13 || c = Char.ofNat 12 ||
    c = Char.ofNat 11

/-- app.py 804: `re.search(r'https?://[^\s"]+', tool_params_str)` — the leftmost
position where `https?://` matches followed by a maximal nonempty run of
non-whitespace non-quote characters. -/
def findUrl : List Char → Option (List Char)
  | [] => none
  | c :: rest =>
    match stripScheme (c :: rest) with
    | some (sch, rest2) =>
      let run := rest2.takeWhile (fun x => !isPyWs x && neQcB x)
      if run ≠ [] then some (sch ++ run) else findUrl rest
    | none => findUrl rest

/-- Substring containment (Python's `in` on strings). -/
def containsSub (pat : List Char) : List Char → Bool
  | [] => pat.isEmpty
  | c :: rest => pat.isPrefixOf (c :: rest) || containsSub pat rest

/-- The characters of `"video_url"` (app.py 802). -/
def videoUrlKey : List Char := ['v', 'i', 'd', 'e', 'o', '_', 'u', 'r', 'l']

/-- app.py 776-813: the full parameter-recovery attempt on an extracted raw
parameter block — the cleaning cascade, then structured decoding, then the
`video_url` fallback that extracts a URL by pattern when decoding failed.
`none` models the `json.JSONDecodeError` escaping to the handler at app.py 828,
after which the directive is discarded. -/
def parseToolParams (raw : List Char) : Option (List (List Char × List Char)) :=
  let cleaned := cleanParams raw
  match jsonLoads cleaned with
  | some ps => some ps
  | none =>
    if containsSub videoUrlKey cleaned then
      match findUrl cleaned with
      | some url => some [(videoUrlKey, url)]
      | none => none
    else none

/-- The literal `TOOL: ` (tool name marker with trailing space) of the
extraction pattern at app.py 766. -/
def toolLit : List Char := ['T', 'O', 'O', 'L', ':', ' ']

/-- The literal `\nPARAMS: ` of the extraction pattern at app.py 766. -/
def paramsLit : List Char := [nl, 'P', 'A', 'R', 'A', 'M', 'S', ':', ' ']

/-- The detection marker `TOOL:` checked at app.py 764. -/
def markerLit : List Char := ['T', 'O', 'O', 'L', ':']

/-- The prefix of `l` up to and including its last `}`; `none` if `l` has no
`}`.  This is what the greedy `({.*})` group (with `re.DOTALL`) captures:
everything from the opening brace to the last closing brace of the text. -/
def upToLastRb (l : List Char) : Option (List Char) :=
  let rev := l.reverse.dropWhile (fun c => c ≠ rb)
  if rev.isEmpty then none else some rev.reverse

/-- One positional attempt of the pattern `TOOL: (\w+)\nPARAMS: ({.*})`
(app.py 766, `re.DOTALL`): the literal `TOOL: `, a maximal nonempty word run
(the tool name — backtracking cannot shorten it since `\n` is not a word
character), the literal `\nPARAMS: `, and a brace-delimited block running to
the last `}` of the remaining text. -/
def tryDirectiveAt (l : List Char) : Option (List Char × List Char) :=
  if toolLit.isPrefixOf l then
    let afterTool := l.drop 6
    let nameRun := afterTool.takeWhile isW
    if nameRun ≠ [] ∧ paramsLit.isPrefixOf (afterTool.dropWhile isW) then
      let afterParams := (afterTool.dropWhile isW).drop 9
      match afterParams with
      | c :: _ =>
        if c = lb then
          match upToLastRb afterParams with
          | some blk => some (nameRun, blk)
          | none => none
        else none
      | [] => none
    else none
  else none

/-- `re.search` of the extraction pattern: try every position left to right. -/
def extractDirective : List Char → Option (List Char × List Char)
  | [] => none
  | c :: rest =>
    match tryDirectiveAt (c :: rest) with
    | some d => some d
    | none => extractDirective rest

/-- A parsed tool invocation directive (app.py 821-827): tool name plus the
recovered parameter object. -/
structure ToolCall where
  name : List Char
  parameters : List (List Char × List Char)
deriving DecidableEq, Repr

/-- app.py 764-813 as a whole: marker detection, directive extraction, and
parameter recovery.  `none` covers the three no-tool-call outcomes (no marker,
regex mismatch at 769, undecodable parameters at 828), all of which fall
through to the plain-answer return at app.py 831-840. -/
def parseDirective (reply : List Char) : Option ToolCall :=
  if containsSub markerLit reply then
    match extractDirective reply with
    | some (n, raw) =>
      match parseToolParams raw with
      | some ps => some ⟨n, ps⟩
      | none => none
    | none => none
  else none

/-- A conversation turn (app.py 729-737: `{"role": r, "parts": [{"text": t}]}`). -/
structure Turn where
  role : String
  text : String
deriving DecidableEq, Repr

/-- The module-level `conversation_history` dict (app.py 88) as a total map;
a session id not yet used maps to the empty transcript, matching the
create-on-first-use at app.py 723-724. -/
def Store : Type := String → List Turn

/-- The store with no conversations. -/
def emptyStore : Store := fun _ => []

/-- Point update of the store (the effect of appending to one session's list). -/
def updateStore (st : Store) (cid : String) (h : List Turn) : Store :=
  fun s => if s = cid then h else st s

/-- A canonically rendered pair `"k": "v"` (the `json.dumps` separators). -/
def renderPair (k v : List Char) : List Char :=
  qc :: (k ++ (qc :: ':' :: ' ' :: qc :: (v ++ [qc])))

/-- Canonically rendered object members, `", "`-separated. -/
def renderMembers : List (List Char × List Char) → List Char
  | [] => []
  | [(k, v)] => renderPair k v
  | (k, v) :: rest => renderPair k v ++ (',' :: ' ' :: renderMembers rest)

/-- A canonically rendered flat JSON object, as produced by `json.dumps` on a
dict of strings with the default separators. -/
def renderObj (kvs : List (List Char × List Char)) : List Char :=
  lb :: (renderMembers kvs ++ [rb])

/-- `json.dumps(tool_results)` (app.py 731) on the flat string-dict model of a
tool result. -/
def dumpResults (tr : List (List Char × List Char)) : String :=
  String.mk (renderObj tr)

/-- The turns appended before the model call (app.py 726-738): the optional
tool-result turn (only when `tool_results` is truthy, i.e. a nonempty dict)
followed by the user-prompt turn. -/
def preTurns (prompt : String) : Option (List (List Char × List Char)) → List Turn
  | some tr =>
    if tr.isEmpty then [⟨"user", prompt⟩]
    else [⟨"function", dumpResults tr⟩, ⟨"user", prompt⟩]
  | none => [⟨"user", prompt⟩]

/-- `role.upper()` at app.py 746. -/
def roleUpper (r : String) : String := String.map Char.toUpper r

/-- The `full_context` accumulation at app.py 742-746. -/
def contextOf (h : List Turn) : String :=
  h.foldl (fun acc t => acc ++ roleUpper t.role ++ ": " ++ t.text ++ "\n\n") ""

/-- The tool catalog advertisement built at app.py 749-751 from the registry
(app.py 698-704) — names and descriptions as declared in the four tool
classes. -/
def toolsDescription : String :=
  "You have access to the following tools:\n" ++
  "- youtube_scraper: Scrapes trending videos from YouTube based on a niche keyword\n" ++
  "- content_analyzer: Analyzes video titles, descriptions, and keywords for SEO optimization\n" ++
  "- content_generator: Generates video script ideas and thumbnails based on trending topics\n" ++
  "- performance_tracker: Tracks video performance metrics and suggests improvements\n"

/-- The fixed instruction tail of the prompt at app.py 753. -/
def promptInstructions : String :=
  "\n\nIf you need to use a tool, respond with:\nTOOL: <tool_name>\nPARAMS: " ++
  "\x7b\x27param1\x27: \x27value1\x27, \x27param2\x27: \x27value2\x27\x7d" ++
  "\n\nOtherwise respond directly to the user."

/-- The `full_prompt` of app.py 753. -/
def buildPrompt (h : List Turn) : String :=
  toolsDescription ++ "\n\n" ++ contextOf h ++ promptInstructions

/-- The model's reply to `call_gemini` (app.py 821-827 / 837-840 / 844-847). -/
structure GeminiResult where
  response : String
  tool_call : Option ToolCall
deriving DecidableEq, Repr

/-- app.py 707-847, `call_gemini`: appends the optional tool-result turn and the
user turn, builds the prompt from the whole transcript, calls the model (an
opaque external dependency, modelled as `gen`; `.error` models a raised
exception), and on success appends the assistant turn and reports the parsed
directive (both the directive and the no-directive paths append the same
assistant turn, app.py 815-819 and 831-835).  On a model failure the result is
the descriptive `"Error: ..."` text with no tool call (app.py 842-847) and no
further history change. -/
def call_gemini (gen : String → Except String String) (st : Store) (prompt : String)
    (cid : String) (tool_results : Option (List (List Char × List Char))) :
    Store × GeminiResult :=
  let h2 := st cid ++ preTurns prompt tool_results
  match gen (buildPrompt h2) with
  | .error e => (updateStore st cid h2, ⟨"Error: " ++ e, none⟩)
  | .ok reply =>
      (updateStore st cid (h2 ++ [⟨"assistant", reply⟩]), ⟨reply, parseDirective (strL reply)⟩)

/-- The registry keys of `available_tools` (app.py 698-704). -/
def availableToolNames : List String :=
  ["youtube_scraper", "content_analyzer", "content_generator", "performance_tracker"]

/-- The characters of the `"error"` result key (app.py 865/874). -/
def errorKey : List Char := ['e', 'r', 'r', 'o', 'r']

/-- app.py 850-874, `execute_tool_call`: registry lookup, invocation, and
failure wrapping.  The four domain tools are out of scope (spec section 1);
an invocation is modelled as `impl`, returning either a payload or the message
of a raised exception.  The function is total: every outcome is a result
dictionary, never a propagated exception. -/
def execute_tool_call (impl : String → List (List Char × List Char) → Except String (List Char))
    (tc : ToolCall) : List (List Char × List Char) :=
  if String.mk tc.name ∈ availableToolNames then
    match impl (String.mk tc.name) tc.parameters with
    | .ok payload => [(tc.name, payload)]
    | .error e => [(errorKey, strL ("Tool execution error: " ++ e))]
  else [(errorKey, strL ("Tool \x27" ++ String.mk tc.name ++ "\x27 not found"))]

/-- An external-call event of the `analyze_video` flow, recorded at each
`call_gemini` / `execute_tool_call` site. -/
inductive Ev
  | model (prompt : String)
  | tool (name : List Char)
deriving DecidableEq, Repr

/-- The initial prompt of app.py 1187 (`videoData` stands for the already
`json.dumps`-serialized `video_data`). -/
def prompt1 (videoId videoData : String) : String :=
  "I want to analyze this YouTube video with ID " ++ videoId ++
  " and the following data: " ++ videoData ++
  ". What insights can you provide about this video\x27s performance, SEO, and content quality?"

/-- The second-round prompt of app.py 1201. -/
def prompt2 : String :=
  "Based on the video analysis, what specific improvements would you recommend for this video? How can the title, description, and content be optimized?"

/-- The final-round prompt of app.py 1218. -/
def prompt3 : String :=
  "Based on all the analysis, what are your final recommendations for improving this video and creating better content in the future?"

/-- The outcome of the `/analyze_video` flow: final store, caller-facing answer
text, the conversation id, and the trace of external calls made. -/
structure AVResult where
  store : Store
  result : String
  conversation_id : String
  events : List Ev

/-- app.py 1170-1251, `analyze_video`: the bounded orchestration flow.  The
fresh `f"video_{int(time.time())}"` conversation id is modelled as the
parameter `cid`.  First model call; if it carries a directive, one tool
invocation and a second model call with the tool results; if that carries a
directive, a second tool invocation and a final model call.  The answer
returned to the caller is the last round's response text. -/
def analyze_video (gen : String → Except String String)
    (impl : String → List (List Char × List Char) → Except String (List Char))
    (st : Store) (cid videoId videoData : String) : AVResult :=
  let p1 := prompt1 videoId videoData
  let c1 := call_gemini gen st p1 cid none
  match c1.2.tool_call with
  | none => ⟨c1.1, c1.2.response, cid, [.model p1]⟩
  | some tc =>
    let tr := execute_tool_call impl tc
    let c2 := call_gemini gen c1.1 prompt2 cid (some tr)
    match c2.2.tool_call with
    | none => ⟨c2.1, c2.2.response, cid, [.model p1, .tool tc.name, .model prompt2]⟩
    | some tc2 =>
      let tr2 := execute_tool_call impl tc2
      let c3 := call_gemini gen c2.1 prompt3 cid (some tr2)
      ⟨c3.1, c3.2.response, cid,
        [.model p1, .tool tc.name, .model prompt2, .tool tc2.name, .model prompt3]⟩

/-- app.py 962-970: the summary call of `/analyze_trending` — `call_gemini`
invoked with the analysis JSON as the user prompt and a `system_prompt`
smuggled through the `tool_results` channel, on a session that has made no
previous model call. -/
def analyze_trending_summary (gen : String → Except String String) (st : Store)
    (sessionId userPrompt sysPrompt : String) : Store × GeminiResult :=
  call_gemini gen st userPrompt sessionId (some [(strL "system_prompt", strL sysPrompt)])

/-- Number of model invocations in an event trace. -/
def countModelCalls (evs : List Ev) : Nat :=
  (evs.filter (fun e => match e with | .model _ => true | .tool _ => false)).length

/-- Number of tool invocations in an event trace. -/
def countToolCalls (evs : List Ev) : Nat :=
  (evs.filter (fun e => match e with | .model _ => false | .tool _ => true)).length

/-- The arguments of one `call_gemini` invocation (for reasoning about
interleaved sequences of calls across sessions). -/
structure CallSpec where
  gen : String → Except String String
  prompt : String
  cid : String
  tool_results : Option (List (List Char × List Char))

/-- Run a sequence of `call_gemini` invocations against the shared store. -/
def runCalls : List CallSpec → Store → Store
  | [], st => st
  | s :: rest, st => runCalls rest (call_gemini s.gen st s.prompt s.cid s.tool_results).1

/-- The turns a single `call_gemini` invocation appends to its own session:
the optional tool-result turn, the user turn, and — when the model call
succeeds — the assistant turn. -/
def cgDelta (gen : String → Except String String) (st : Store) (prompt cid : String)
    (tr : Option (List (List Char × List Char))) : List Turn :=
  preTurns prompt tr ++
    match gen (buildPrompt (st cid ++ preTurns prompt tr)) with
    | .ok reply => [⟨"assistant", reply⟩]
    | .error _ => []

/-- `funcPrecededAux p seen h = true` iff every turn of role `"function"` in
`h` is preceded (in `h`, or before it when `seen` is set) by a turn satisfying
`p`. -/
def funcPrecededAux (p : Turn → Bool) : Bool → List Turn → Bool
  | _, [] => true
  | seen, t :: rest => ((t.role != "function") || seen) && funcPrecededAux p (seen || p t) rest

/-- Every tool-result turn (role `"function"`) of the transcript is preceded,
somewhere earlier in it, by a turn satisfying `p`. -/
def toolResultPreceded (p : Turn → Bool) (h : List Turn) : Bool :=
  funcPrecededAux p false h

/-- An assistant turn. -/
def isAssistant (t : Turn) : Bool := t.role == "assistant"

/-- An assistant turn whose reply text carries a tool directive marker —
the kind of turn whose directive produces a tool-result turn. -/
def isDirectiveAssistant (t : Turn) : Bool :=
  t.role == "assistant" && containsSub markerLit (strL t.text)

/-- A well-formed JSON object key for the canonical-block analysis: a nonempty
run of word characters (so in particular no quote, backslash, apostrophe or
control character — the last three facts are recorded explicitly alongside). -/
def goodKey (k : List Char) : Prop :=
  k ≠ [] ∧ ∀ c ∈ k, isW c = true ∧ c ≠ qc ∧ c ≠ bs ∧ 32 ≤ c.toNat

/-- A string value on which the repair cascade is lossless: nonempty, free of
both quote styles and of backslashes and control characters (so the block is
escape-free well-formed JSON), and free of colons (so neither the URL-oriented
stages nor the key-quoting stage can fire inside it). -/
def goodVal (v : List Char) : Prop :=
  v ≠ [] ∧ ∀ c ∈ v, c ≠ qc ∧ c ≠ ap ∧ c ≠ bs ∧ c ≠ ':' ∧ 32 ≤ c.toNat

/-- All pairs of a parameter object are well formed in the above sense. -/
def goodKVs (kvs : List (List Char × List Char)) : Prop :=
  ∀ p ∈ kvs, goodKey p.1 ∧ goodVal p.2

/-- The per-position property making the repair cascade the identity: the three
rewriting stages `m2`, `m3`, `m5` find no match, and any `m4` match replaces
the consumed characters by themselves. -/
def CleanOK (s : List Char) : Prop :=
  m2 s = none ∧ m3 s = none ∧
    (∀ rep k, m4 s = some (rep, k) → rep = s.take (k + 1)) ∧ m5 s = none

/-! ### The effect of one `call_gemini` invocation -/

theorem cg_eq_error {gen : String → Except String String} {st : Store} {p cid : String}
    {tr : Option (List (List Char × List Char))} {e : String}
    (hg : gen (buildPrompt (st cid ++ preTurns p tr)) = .error e) :
    call_gemini gen st p cid tr =
      (updateStore st cid (st cid ++ preTurns p tr), ⟨"Error: " ++ e, none⟩) := by
  simp [call_gemini, hg]

theorem cg_eq_ok {gen : String → Except String String} {st : Store} {p cid : String}
    {tr : Option (List (List Char × List Char))} {reply : String}
    (hg : gen (buildPrompt (st cid ++ preTurns p tr)) = .ok reply) :
    call_gemini gen st p cid tr =
      (updateStore st cid (st cid ++ preTurns p tr ++ [⟨"assistant", reply⟩]),
        ⟨reply, parseDirective (strL reply)⟩) := by
  simp [call_gemini, hg]

theorem cg_fst_self (gen : String → Except String String) (st : Store) (p cid : String)
    (tr : Option (List (List Char × List Char))) :
    (call_gemini gen st p cid tr).1 cid = st cid ++ cgDelta gen st p cid tr := by
  rcases hg : gen (buildPrompt (st cid ++ preTurns p tr)) with e | reply
  · rw [cg_eq_error hg]; simp [cgDelta, hg, updateStore]
  · rw [cg_eq_ok hg]; simp [cgDelta, hg, updateStore]

theorem cg_fst_other {sid cid : String} (h : sid ≠ cid) (gen : String → Except String String)
    (st : Store) (p : String) (tr : Option (List (List Char × List Char))) :
    (call_gemini gen st p cid tr).1 sid = st sid := by
  rcases hg : gen (buildPrompt (st cid ++ preTurns p tr)) with e | reply
  · rw [cg_eq_error hg]; simp [updateStore, h]
  · rw [cg_eq_ok hg]; simp [updateStore, h]

theorem preTurns_ne_nil (p : String) (tr : Option (List (List Char × List Char))) :
    preTurns p tr ≠ [] := by
  rcases tr with _ | tr
  · simp [preTurns]
  · simp only [preTurns]
    split <;> simp

theorem cgDelta_ne_nil (gen : String → Except String String) (st : Store) (p cid : String)
    (tr : Option (List (List Char × List Char))) : cgDelta gen st p cid tr ≠ [] := by
  unfold cgDelta
  intro h
  exact preTurns_ne_nil p tr (List.append_eq_nil.mp h).1

/-- `parseDirective` only yields a tool call when the detection marker is in
the reply (app.py 764). -/
theorem parseDirective_some_marker {l : List Char} {tc : ToolCall}
    (h : parseDirective l = some tc) : containsSub markerLit l = true := by
  by_cases hm : containsSub markerLit l = true
  · exact hm
  · rw [parseDirective, if_neg hm] at h; cases h

/-! ### C7 — model-call failures are absorbed -/

/-- C7: whenever the model call inside `call_gemini` raises, the exception is
caught and converted into a result whose response text is the descriptive
`"Error: ..."` string and whose `tool_call` is `none`; `call_gemini` is total,
so nothing propagates to the caller. -/
theorem model_failure_gives_error_result (gen : String → Except String String)
    (st : Store) (p cid : String) (tr : Option (List (List Char × List Char))) (e : String)
    (hg : gen (buildPrompt (st cid ++ preTurns p tr)) = .error e) :
    (call_gemini gen st p cid tr).2 = ⟨"Error: " ++ e, none⟩ := by
  rw [cg_eq_error hg]

/-- Witness: a concrete always-failing model. -/
theorem model_failure_gives_error_result_witness :
    (call_gemini (fun _ => .error "quota exceeded") emptyStore "hi" "s" none).2 =
      ⟨"Error: " ++ "quota exceeded", none⟩ :=
  model_failure_gives_error_result (fun _ => .error "quota exceeded") emptyStore "hi" "s" none
    "quota exceeded" rfl

/-! ### C10 — the error path does not roll back history -/

/-- C10: when the model call raises, the turns appended before it — the
optional tool-result (`"function"`) turn and the user-prompt turn — remain in
the session's history; the error path performs no rollback. -/
theorem model_failure_keeps_pre_turns (gen : String → Except String String)
    (st : Store) (p cid : String) (tr : Option (List (List Char × List Char))) (e : String)
    (hg : gen (buildPrompt (st cid ++ preTurns p tr)) = .error e) :
    (call_gemini gen st p cid tr).1 cid = st cid ++ preTurns p tr := by
  rw [cg_eq_error hg]; simp [updateStore]

/-- Witness: with tool results passed, both the `"function"` turn and the
`"user"` turn survive the model failure. -/
theorem model_failure_keeps_pre_turns_witness :
    (call_gemini (fun _ => .error "boom") emptyStore "improve" "s"
        (some [(strL "youtube_scraper", strL "data")])).1 "s" =
      [⟨"function", dumpResults [(strL "youtube_scraper", strL "data")]⟩, ⟨"user", "improve"⟩] := by
  have h := model_failure_keeps_pre_turns (fun _ => .error "boom") emptyStore "improve" "s"
    (some [(strL "youtube_scraper", strL "data")]) "boom" rfl
  rw [h]; rfl

/-! ### C4 — a reply without the marker is a final answer -/

/-- C4: a model reply that does not contain the literal `"TOOL:"` marker is
treated as a final answer: `call_gemini` returns it with `tool_call = none` and
appends it to the session history as an assistant turn. -/
theorem no_marker_is_final_answer (gen : String → Except String String)
    (st : Store) (p cid : String) (tr : Option (List (List Char × List Char))) (reply : String)
    (hg : gen (buildPrompt (st cid ++ preTurns p tr)) = .ok reply)
    (hm : containsSub markerLit (strL reply) = false) :
    (call_gemini gen st p cid tr).2 = ⟨reply, none⟩ ∧
    (call_gemini gen st p cid tr).1 cid =
      st cid ++ preTurns p tr ++ [⟨"assistant", reply⟩] := by
  rw [cg_eq_ok hg]
  exact ⟨by simp [parseDirective, hm], by simp [updateStore]⟩

/-- Witness: a concrete marker-free reply. -/
theorem no_marker_is_final_answer_witness :
    (call_gemini (fun _ => .ok "Here are my thoughts.") emptyStore "q" "s" none).2 =
      ⟨"Here are my thoughts.", none⟩ ∧
    (call_gemini (fun _ => .ok "Here are my thoughts.") emptyStore "q" "s" none).1 "s" =
      emptyStore "s" ++ preTurns "q" none ++ [⟨"assistant", "Here are my thoughts."⟩] :=
  no_marker_is_final_answer _ emptyStore "q" "s" none "Here are my thoughts." rfl (by decide)

/-! ### C5 — an undecodable directive is discarded, not raised -/

/-- C5: when the reply carries the marker and a directive is extracted but no
repair stage produces a decodable parameter object, `call_gemini` does not
raise: the directive is discarded, the reply is still appended as the assistant
turn and returned as that round's answer with `tool_call = none`. -/
theorem undecodable_directive_discarded (gen : String → Except String String)
    (st : Store) (p cid : String) (tr : Option (List (List Char × List Char)))
    (reply : String) (n raw : List Char)
    (hg : gen (buildPrompt (st cid ++ preTurns p tr)) = .ok reply)
    (hm : containsSub markerLit (strL reply) = true)
    (he : extractDirective (strL reply) = some (n, raw))
    (hp : parseToolParams raw = none) :
    (call_gemini gen st p cid tr).2 = ⟨reply, none⟩ ∧
    (call_gemini gen st p cid tr).1 cid =
      st cid ++ preTurns p tr ++ [⟨"assistant", reply⟩] := by
  rw [cg_eq_ok hg]
  exact ⟨by simp [parseDirective, hm, he, hp], by simp [updateStore]⟩

/-- Witness: a directive whose parameter block decodes under no stage. -/
theorem undecodable_directive_discarded_witness :
    (call_gemini (fun _ => .ok "TOOL: youtube_scraper\nPARAMS: \x7bbroken\x7d")
        emptyStore "q" "s" none).2 =
      ⟨"TOOL: youtube_scraper\nPARAMS: \x7bbroken\x7d", none⟩ ∧
    (call_gemini (fun _ => .ok "TOOL: youtube_scraper\nPARAMS: \x7bbroken\x7d")
        emptyStore "q" "s" none).1 "s" =
      emptyStore "s" ++ preTurns "q" none ++
        [⟨"assistant", "TOOL: youtube_scraper\nPARAMS: \x7bbroken\x7d"⟩] :=
  undecodable_directive_discarded _ emptyStore "q" "s" none
    "TOOL: youtube_scraper\nPARAMS: \x7bbroken\x7d"
    (strL "youtube_scraper") (strL "\x7bbroken\x7d") rfl (by decide) (by decide) (by decide)

/-! ### C6 — the dispatcher absorbs every failure -/

/-- C6: `execute_tool_call` is a total function (never raises).  An unknown
tool name yields the unknown-tool failure dictionary; a tool invocation that
raises yields the execution-error dictionary carrying the underlying message;
a successful invocation yields the payload keyed by the tool name. -/
theorem dispatcher_never_raises
    (impl : String → List (List Char × List Char) → Except String (List Char))
    (tc : ToolCall) :
    (String.mk tc.name ∉ availableToolNames →
      execute_tool_call impl tc =
        [(errorKey, strL ("Tool \x27" ++ String.mk tc.name ++ "\x27 not found"))]) ∧
    (∀ payload, String.mk tc.name ∈ availableToolNames →
      impl (String.mk tc.name) tc.parameters = .ok payload →
      execute_tool_call impl tc = [(tc.name, payload)]) ∧
    (∀ e, String.mk tc.name ∈ availableToolNames →
      impl (String.mk tc.name) tc.parameters = .error e →
      execute_tool_call impl tc =
        [(errorKey, strL ("Tool execution error: " ++ e))]) := by
  refine ⟨fun h => ?_, fun payload hmem hi => ?_, fun e hmem hi => ?_⟩ <;>
    simp [execute_tool_call, *]

/-- Witness: the three outcomes at concrete tools. -/
theorem dispatcher_never_raises_witness :
    execute_tool_call (fun _ _ => .ok (strL "data")) ⟨strL "nope", []⟩ =
      [(errorKey, strL ("Tool \x27" ++ String.mk (strL "nope") ++ "\x27 not found"))] ∧
    execute_tool_call (fun _ _ => .ok (strL "data")) ⟨strL "youtube_scraper", []⟩ =
      [(strL "youtube_scraper", strL "data")] ∧
    execute_tool_call (fun _ _ => .error "missing niche") ⟨strL "youtube_scraper", []⟩ =
      [(errorKey, strL ("Tool execution error: " ++ "missing niche"))] :=
  ⟨(dispatcher_never_raises (fun _ _ => .ok (strL "data")) ⟨strL "nope", []⟩).1 (by decide),
   (dispatcher_never_raises (fun _ _ => .ok (strL "data")) ⟨strL "youtube_scraper", []⟩).2.1
      (strL "data") (by decide) rfl,
   (dispatcher_never_raises (fun _ _ => .error "missing niche")
      ⟨strL "youtube_scraper", []⟩).2.2 "missing niche" (by decide) rfl⟩

/-! ### C1 — the round budget of `/analyze_video` -/

/-- C1: for every model and every tool behaviour, one `/analyze_video` request
makes at most 3 model calls and at most 2 tool invocations — the flow is
bounded by its structure no matter how many further directives the model's
replies contain. -/
theorem analyze_video_round_budget (gen : String → Except String String)
    (impl : String → List (List Char × List Char) → Except String (List Char))
    (st : Store) (cid vid vdata : String) :
    countModelCalls (analyze_video gen impl st cid vid vdata).events ≤ 3 ∧
    countToolCalls (analyze_video gen impl st cid vid vdata).events ≤ 2 := by
  simp only [analyze_video]
  rcases h1 : (call_gemini gen st (prompt1 vid vdata) cid none).2.tool_call with _ | tc
  · simp [countModelCalls, countToolCalls, h1]
  · rcases h2 : (call_gemini gen (call_gemini gen st (prompt1 vid vdata) cid none).1
        prompt2 cid (some (execute_tool_call impl tc))).2.tool_call with _ | tc2
    · simp [countModelCalls, countToolCalls, h1, h2]
    · simp [countModelCalls, countToolCalls, h1, h2]

/-! ### C8 — the conversation store is append-only with session isolation -/

/-- C8: over any interleaved sequence of `call_gemini` invocations, each
session's transcript only grows by appending: its final value is its initial
value followed by one nonempty block per call addressed to that session, in
call order, and calls to other sessions leave it untouched. -/
theorem conversation_store_append_only (specs : List CallSpec) (st : Store) (sid : String) :
    ∃ ds : List (List Turn),
      runCalls specs st sid = st sid ++ ds.flatten ∧
      ds.length = (specs.filter (fun s => s.cid == sid)).length ∧
      ∀ d ∈ ds, d ≠ [] := by
  induction specs generalizing st with
  | nil => exact ⟨[], by simp [runCalls], by simp, by simp⟩
  | cons s rest ih =>
    obtain ⟨ds, h1, h2, h3⟩ := ih ((call_gemini s.gen st s.prompt s.cid s.tool_results).1)
    by_cases hc : s.cid = sid
    · subst hc
      refine ⟨cgDelta s.gen st s.prompt s.cid s.tool_results :: ds, ?_, ?_, ?_⟩
      · rw [runCalls, h1, cg_fst_self]; simp
      · simp [h2, List.filter_cons]
      · intro d hd
        rcases List.mem_cons.mp hd with rfl | hd
        · exact cgDelta_ne_nil s.gen st s.prompt s.cid s.tool_results
        · exact h3 d hd
    · refine ⟨ds, ?_, ?_, h3⟩
      · rw [runCalls, h1, cg_fst_other (fun h => hc h.symm)]
      · simp [h2, List.filter_cons, hc]

/-! ### C9 — tool-result turns and their producing assistant turns -/

/-- C9 counterexample: the summary call of `/analyze_trending` (app.py 962-970)
passes a system prompt through the `tool_results` channel on a session's first
model call, so the very first turn of the reachable history has role
`"function"` with no assistant turn anywhere before it. -/
theorem toolresult_without_assistant_counterexample :
    toolResultPreceded isAssistant
      ((analyze_trending_summary (fun _ => .ok "Summary of the trends.") emptyStore
          "sess" "analysis data" "You analyze trends.").1 "sess") = false := by
  decide

theorem funcPrecededAux_true (p : Turn → Bool) (l : List Turn) :
    funcPrecededAux p true l = true := by
  induction l with
  | nil => rfl
  | cons t rest ih => simp [funcPrecededAux, ih]

theorem funcPrecededAux_append (p : Turn → Bool) (seen : Bool) (h1 h2 : List Turn) :
    funcPrecededAux p seen (h1 ++ h2) =
      (funcPrecededAux p seen h1 && funcPrecededAux p (seen || h1.any p) h2) := by
  induction h1 generalizing seen with
  | nil => simp [funcPrecededAux]
  | cons t rest ih =>
    simp [funcPrecededAux, ih, List.any_cons, Bool.or_assoc, Bool.and_assoc]

/-- When a `call_gemini` invocation reports a tool call, the session history it
leaves behind ends with the assistant turn that carries the directive. -/
theorem cg_toolcall_some (gen : String → Except String String) (st : Store)
    (p cid : String) (tr : Option (List (List Char × List Char))) {tc : ToolCall}
    (h : (call_gemini gen st p cid tr).2.tool_call = some tc) :
    ∃ reply, (call_gemini gen st p cid tr).1 cid =
        st cid ++ preTurns p tr ++ [⟨"assistant", reply⟩] ∧
      isDirectiveAssistant ⟨"assistant", reply⟩ = true := by
  rcases hg : gen (buildPrompt (st cid ++ preTurns p tr)) with e | reply
  · rw [cg_eq_error hg] at h; cases h
  · rw [cg_eq_ok hg] at h ⊢
    simp only at h
    exact ⟨reply, by simp [updateStore], by
      simp [isDirectiveAssistant, parseDirective_some_marker h]⟩

/-- C9 (amended): in every history produced by the `/analyze_video` flow on a
fresh conversation id, every tool-result (`"function"`) turn is preceded,
earlier in the history, by an assistant turn carrying a tool directive — the
reply whose directive produced it. -/
theorem toolresult_preceded_in_analyze_video (gen : String → Except String String)
    (impl : String → List (List Char × List Char) → Except String (List Char))
    (st : Store) (cid vid vdata : String) (h0 : st cid = []) :
    toolResultPreceded isDirectiveAssistant
      ((analyze_video gen impl st cid vid vdata).store cid) = true := by
  simp only [analyze_video]
  rcases h1 : (call_gemini gen st (prompt1 vid vdata) cid none).2.tool_call with _ | tc
  · simp only [h1]
    rw [cg_fst_self, h0]
    simp only [cgDelta, h0, preTurns, List.nil_append]
    rcases hg : gen (buildPrompt [⟨"user", prompt1 vid vdata⟩]) with e | reply <;>
      simp [hg, toolResultPreceded, funcPrecededAux]
  · obtain ⟨reply1, hs1, hd1⟩ := cg_toolcall_some gen st (prompt1 vid vdata) cid none h1
    simp only [h1]
    rcases h2 : (call_gemini gen (call_gemini gen st (prompt1 vid vdata) cid none).1
        prompt2 cid (some (execute_tool_call impl tc))).2.tool_call with _ | tc2
    · simp only [h2]
      rw [cg_fst_self, hs1, h0]
      simp [toolResultPreceded, funcPrecededAux_append, funcPrecededAux,
        funcPrecededAux_true, preTurns, hd1]
    · simp only [h2]
      rw [cg_fst_self, cg_fst_self, hs1, h0]
      simp [toolResultPreceded, funcPrecededAux_append, funcPrecededAux,
        funcPrecededAux_true, preTurns, hd1]

/-! ### C3 — the spec's URL-unwrapping scenario against the code -/

/-- C3, evaluated on the spec's mandated scenario input
`TOOL: performance_tracker\nPARAMS: {"video_url": ""https"://example.com/watch?v=abc"}`:
the extraction regex finds the directive, but the repair cascade maps the
parameter block to itself — stage app.py 783 unwraps the quoted scheme and
stage app.py 792 (`(\w+):` key-quoting) re-wraps it by matching the `https:`
inside the value — so decoding fails, the fallback at app.py 804 finds no
contiguous `https://` substring either, and the directive is discarded
(`tool_call = None`) instead of yielding the unwrapped URL. -/
theorem url_directive_discarded_eval :
    extractDirective
        (J "TOOL: performance_tracker\nPARAMS: \x7b%video_url%: %%https%://example.com/watch?v=abc%\x7d") =
      some (strL "performance_tracker",
        J "\x7b%video_url%: %%https%://example.com/watch?v=abc%\x7d") ∧
    cleanParams (J "\x7b%video_url%: %%https%://example.com/watch?v=abc%\x7d") =
      J "\x7b%video_url%: %%https%://example.com/watch?v=abc%\x7d" ∧
    parseToolParams (J "\x7b%video_url%: %%https%://example.com/watch?v=abc%\x7d") = none ∧
    parseDirective
        (J "TOOL: performance_tracker\nPARAMS: \x7b%video_url%: %%https%://example.com/watch?v=abc%\x7d") =
      none :=
  ⟨by decide, by decide, by decide, by decide⟩

/-! ### C2 — well-formed blocks versus the repair pipeline -/

/-- C2 counterexample: `{"prompt": "it's fine"}` is standard well-formed
double-quoted JSON and decodes directly to `{prompt: "it's fine"}`, but the
repair pipeline (whose first stage rewrites every single quote to a double
quote, app.py 779) recovers nothing from it. -/
theorem wellformed_json_not_recovered_counterexample :
    jsonLoads (J "\x7b%prompt%: %it\x27s fine%\x7d") =
      some [(strL "prompt", strL "it\x27s fine")] ∧
    parseToolParams (J "\x7b%prompt%: %it\x27s fine%\x7d") = none :=
  ⟨by decide, by decide⟩

/-- Witness for the amended C9 at a concrete run: a model that always requests
a tool, driving the flow through both tool rounds. -/
theorem toolresult_preceded_in_analyze_video_witness :
    toolResultPreceded isDirectiveAssistant
      ((analyze_video
          (fun _ => .ok (String.mk (J "TOOL: youtube_scraper\nPARAMS: \x7b%niche%: %cooking%\x7d")))
          (fun _ _ => .ok (strL "payload")) emptyStore "video_1" "abc" "data").store
        "video_1") = true :=
  toolresult_preceded_in_analyze_video _ _ emptyStore "video_1" "abc" "data" rfl

/-! ### The repair cascade is the identity on colon-free canonical blocks -/

theorem rewriteScanF_id_of_none (f : List Char → Option (List Char × Nat)) (fuel : Nat)
    (l : List Char) (h : ∀ s, s <:+ l → f s = none) : rewriteScanF f fuel l = l := by
  induction fuel generalizing l with
  | zero => cases l <;> rfl
  | succ fuel ih =>
    cases l with
    | nil => rfl
    | cons c rest =>
      have h1 := h (c :: rest) (List.suffix_refl _)
      simp only [rewriteScanF, h1]
      exact congrArg (c :: ·) (ih rest fun s hs => h s (hs.trans (List.suffix_cons c rest)))

theorem rewriteScanF_id_of_take (f : List Char → Option (List Char × Nat)) (fuel : Nat)
    (l : List Char)
    (h : ∀ s, s <:+ l → ∀ rep k, f s = some (rep, k) → rep = s.take (k + 1)) :
    rewriteScanF f fuel l = l := by
  induction fuel generalizing l with
  | zero => cases l <;> rfl
  | succ fuel ih =>
    cases l with
    | nil => rfl
    | cons c rest =>
      rcases hf : f (c :: rest) with _ | ⟨rep, k⟩
      · simp only [rewriteScanF, hf]
        exact congrArg (c :: ·)
          (ih rest fun s hs => h s (hs.trans (List.suffix_cons c rest)))
      · have hrep := h (c :: rest) (List.suffix_refl _) rep k hf
        simp only [rewriteScanF, hf, hrep, List.take_succ_cons]
        rw [ih (rest.drop k)
          (fun s hs => h s (hs.trans ((List.drop_suffix k rest).trans (List.suffix_cons c rest))))]
        rw [List.cons_append, List.take_append_drop]

theorem replQuotes_id {l : List Char} (h : ∀ c ∈ l, c ≠ ap) : replQuotes l = l := by
  induction l with
  | nil => rfl
  | cons c rest ih =>
    simp only [replQuotes, List.map_cons]
    rw [if_neg (h c (List.mem_cons_self c rest))]
    exact congrArg (c :: ·) (ih fun x hx => h x (List.mem_cons_of_mem c hx))

theorem suffix_append_split {s a b : List Char} (h : s <:+ a ++ b) :
    (∃ c a2, (c :: a2) <:+ a ∧ s = (c :: a2) ++ b) ∨ s <:+ b := by
  induction a with
  | nil => right; simpa using h
  | cons c a ih =>
    rw [List.cons_append] at h
    rcases List.suffix_cons_iff.mp h with hEq | h2
    · left; exact ⟨c, a, List.suffix_refl _, by simpa using hEq⟩
    · rcases ih h2 with ⟨d, a2, hsuf, rfl⟩ | hb
      · left; exact ⟨d, a2, hsuf.trans (List.suffix_cons c a), rfl⟩
      · right; exact hb

/-- A word character differs from any non-word character. -/
theorem isW_ne {c d : Char} (hW : isW c = true) (hd : isW d = false) : c ≠ d := by
  intro h; rw [h, hd] at hW; cases hW

theorem m2_none_head {c : Char} (h : c ≠ qc) (l : List Char) : m2 (c :: l) = none := by
  simp [m2, pref2s, pref2h, List.isPrefixOf, Ne.symm h]

theorem m2_none_second {c2 : Char} (h : c2 ≠ ':') (l : List Char) :
    m2 (qc :: c2 :: l) = none := by
  simp [m2, pref2s, pref2h, List.isPrefixOf, Ne.symm h]

theorem m2_none_fifth {c5 : Char} (h : c5 ≠ qc) (l : List Char) :
    m2 (qc :: ':' :: ' ' :: qc :: c5 :: l) = none := by
  simp [m2, pref2s, pref2h, List.isPrefixOf, Ne.symm h]

theorem m3_none_head {c : Char} (h : c ≠ qc) (l : List Char) : m3 (c :: l) = none := by
  rcases l with _ | ⟨c2, _ | ⟨c3, rest⟩⟩ <;> simp [m3, h]

theorem m3_none_second {c2 : Char} (h : c2 ≠ ':') (l : List Char) :
    m3 (qc :: c2 :: l) = none := by
  rcases l with _ | ⟨c3, rest⟩ <;> simp [m3, h]

theorem m3_none_fifth {c5 : Char} (h : c5 ≠ qc) (l : List Char) :
    m3 (qc :: ':' :: ' ' :: qc :: c5 :: l) = none := by
  simp [m3, List.takeWhile_cons, eqQcB, h]

theorem m4_none_head {c : Char} (h : c ≠ qc) (l : List Char) : m4 (c :: l) = none := by
  rcases l with _ | ⟨c2, rest⟩ <;> simp [m4, h]

theorem m4_none_second {c2 : Char} (h : c2 ≠ ':') (l : List Char) :
    m4 (qc :: c2 :: l) = none := by
  simp [m4, h]

theorem m5_none_head {c : Char} (h : isW c = false) (l : List Char) : m5 (c :: l) = none := by
  simp [m5, h]

theorem dropWhile_isW_head_ne_colon (a : List Char) (c : Char) (rest : List Char)
    (ha : ∀ x ∈ a, x ≠ ':') (hc1 : isW c = false) (hc2 : c ≠ ':') :
    ∀ z zs, List.dropWhile isW (a ++ c :: rest) = z :: zs → z ≠ ':' := by
  induction a with
  | nil =>
    intro z zs h
    rw [List.nil_append, List.dropWhile_cons, if_neg (by simp [hc1])] at h
    cases h; exact hc2
  | cons d a ih =>
    intro z zs h
    rw [List.cons_append, List.dropWhile_cons] at h
    by_cases hd : isW d = true
    · rw [if_pos hd] at h
      exact ih (fun x hx => ha x (List.mem_cons_of_mem d hx)) z zs h
    · rw [if_neg hd] at h
      cases h; exact ha d (List.mem_cons_self d a)

theorem m5_none_seg (a : List Char) (c : Char) (rest : List Char)
    (ha : ∀ x ∈ a, x ≠ ':') (hc1 : isW c = false) (hc2 : c ≠ ':') :
    m5 (a ++ c :: rest) = none := by
  cases a with
  | nil => simpa using m5_none_head hc1 rest
  | cons d a2 =>
    rw [List.cons_append]
    by_cases hd : isW d = true
    · rcases hdrop : List.dropWhile isW (d :: (a2 ++ c :: rest)) with _ | ⟨z, zs⟩
      · simp [m5, hd, hdrop]
      · have hz : z ≠ ':' := by
          apply dropWhile_isW_head_ne_colon (d :: a2) c rest ha hc1 hc2 z zs
          rw [List.cons_append]; exact hdrop
        simp [m5, hd, hdrop, hz]
    · exact m5_none_head (by simpa using hd) _

theorem takeWhile_ne_qc_append (v rest : List Char) (hv : ∀ x ∈ v, x ≠ qc) :
    List.takeWhile neQcB (v ++ qc :: rest) = v := by
  induction v with
  | nil => simp [List.takeWhile_cons, neQcB]
  | cons c v ih =>
    rw [List.cons_append, List.takeWhile_cons,
      if_pos (by simp [neQcB, hv c (List.mem_cons_self c v)])]
    exact congrArg (c :: ·) (ih fun x hx => hv x (List.mem_cons_of_mem c hx))

theorem dropWhile_ne_qc_append (v rest : List Char) (hv : ∀ x ∈ v, x ≠ qc) :
    List.dropWhile neQcB (v ++ qc :: rest) = qc :: rest := by
  induction v with
  | nil => simp [List.dropWhile_cons, neQcB]
  | cons c v ih =>
    rw [List.cons_append, List.dropWhile_cons,
      if_pos (by simp [neQcB, hv c (List.mem_cons_self c v)])]
    exact ih fun x hx => hv x (List.mem_cons_of_mem c hx)

/-- `m4` at a canonical key-close position matches `": "v"`. -/
theorem m4_at_key_close (v B : List Char) (hne : v ≠ []) (hq : ∀ x ∈ v, x ≠ qc) :
    m4 (qc :: ':' :: ' ' :: qc :: (v ++ (qc :: B))) =
      some ([qc, ':', ' ', qc] ++ v ++ [qc], 4 + v.length) := by
  have hv1 : List.takeWhile eqSpaceB (' ' :: qc :: (v ++ (qc :: B))) = [' '] := by
    rw [List.takeWhile_cons, if_pos (by decide), List.takeWhile_cons, if_neg (by decide)]
  have hv2 : List.dropWhile eqSpaceB (' ' :: qc :: (v ++ (qc :: B))) =
      qc :: (v ++ (qc :: B)) := by
    rw [List.dropWhile_cons, if_pos (by decide), List.dropWhile_cons, if_neg (by decide)]
  simp only [m4, hv1, hv2, List.head?_cons, List.tail_cons,
    takeWhile_ne_qc_append v B hq, dropWhile_ne_qc_append v B hq]
  simp [hne]

/-- The `m4` match at a key-close position replaces the consumed characters by
themselves. -/
theorem m4_take_at_key_close (v B : List Char) (hne : v ≠ []) (hq : ∀ x ∈ v, x ≠ qc) :
    ∀ rep k', m4 (qc :: ':' :: ' ' :: qc :: (v ++ (qc :: B))) = some (rep, k') →
      rep = (qc :: ':' :: ' ' :: qc :: (v ++ (qc :: B))).take (k' + 1) := by
  intro rep k' h
  rw [m4_at_key_close v B hne hq] at h
  simp only [Option.some.injEq, Prod.mk.injEq] at h
  obtain ⟨hrep, hk⟩ := h
  subst hrep; subst hk
  have h5 : 4 + v.length + 1 = v.length + 1 + 1 + 1 + 1 + 1 := by omega
  rw [h5, List.take_succ_cons, List.take_succ_cons, List.take_succ_cons,
    List.take_succ_cons, List.take_append]
  simp

theorem cleanOK_of_none {s : List Char} (h2 : m2 s = none) (h3 : m3 s = none)
    (h4 : m4 s = none) (h5 : m5 s = none) : CleanOK s := by
  refine ⟨h2, h3, ?_, h5⟩
  intro rep k h
  rw [h4] at h
  cases h

/-- `CleanOK` at every suffix position inside one rendered `"key": "value"`
segment, given it at every position of the continuation `B` (which starts with
`,` or `}`). -/
theorem cleanOK_pair_seg (k v B : List Char) (hk : goodKey k) (hv : goodVal v)
    (hB : ∀ s, s <:+ B → CleanOK s)
    (cB : Char) (B2 : List Char) (hBeq : B = cB :: B2) (hcB1 : cB ≠ ':') :
    ∀ s, s <:+ renderPair k v ++ B → CleanOK s := by
  obtain ⟨hkne, hkc⟩ := hk
  obtain ⟨hvne, hvc⟩ := hv
  obtain ⟨kh, kt, hkeq⟩ := List.exists_cons_of_ne_nil hkne
  obtain ⟨vh, vt, hveq⟩ := List.exists_cons_of_ne_nil hvne
  subst hkeq; subst hveq
  intro s hs
  rw [show renderPair (kh :: kt) (vh :: vt) ++ B =
      qc :: ((kh :: kt) ++ (qc :: ':' :: ' ' :: qc :: ((vh :: vt) ++ (qc :: B)))) by
    simp [renderPair]] at hs
  rcases List.suffix_cons_iff.mp hs with rfl | hs2
  · -- the key-opening quote position
    refine cleanOK_of_none ?_ ?_ ?_ ?_
    · rw [List.cons_append]
      exact m2_none_second (isW_ne (hkc kh (by simp)).1 (by decide)) _
    · rw [List.cons_append]
      exact m3_none_second (isW_ne (hkc kh (by simp)).1 (by decide)) _
    · rw [List.cons_append]
      exact m4_none_second (isW_ne (hkc kh (by simp)).1 (by decide)) _
    · exact m5_none_head (by decide) _
  · rcases suffix_append_split hs2 with ⟨c0, a2, hsufk, rfl⟩ | hs3
    · -- positions inside the key
      have ha2 : ∀ x ∈ c0 :: a2, isW x = true := fun x hx => (hkc x (hsufk.subset hx)).1
      refine cleanOK_of_none ?_ ?_ ?_ ?_
      · rw [List.cons_append]; exact m2_none_head (isW_ne (ha2 c0 (by simp)) (by decide)) _
      · rw [List.cons_append]; exact m3_none_head (isW_ne (ha2 c0 (by simp)) (by decide)) _
      · rw [List.cons_append]; exact m4_none_head (isW_ne (ha2 c0 (by simp)) (by decide)) _
      · exact m5_none_seg (c0 :: a2) qc _
          (fun x hx => isW_ne (ha2 x hx) (by decide)) (by decide) (by decide)
    · rcases List.suffix_cons_iff.mp hs3 with rfl | hs4
      · -- the key-closing quote position: the identity `m4` match
        refine ⟨?_, ?_, ?_, ?_⟩
        · rw [List.cons_append]; exact m2_none_fifth ((hvc vh (by simp)).1) _
        · rw [List.cons_append]; exact m3_none_fifth ((hvc vh (by simp)).1) _
        · intro rep k' h
          exact m4_take_at_key_close (vh :: vt) B (by simp)
            (fun x hx => (hvc x hx).1) rep k' h
        · exact m5_none_head (by decide) _
      · rcases List.suffix_cons_iff.mp hs4 with rfl | hs5
        · -- the colon position
          exact cleanOK_of_none (m2_none_head (by decide) _) (m3_none_head (by decide) _)
            (m4_none_head (by decide) _) (m5_none_head (by decide) _)
        · rcases List.suffix_cons_iff.mp hs5 with rfl | hs6
          · -- the space position
            exact cleanOK_of_none (m2_none_head (by decide) _) (m3_none_head (by decide) _)
              (m4_none_head (by decide) _) (m5_none_head (by decide) _)
          · rcases List.suffix_cons_iff.mp hs6 with rfl | hs7
            · -- the value-opening quote position
              refine cleanOK_of_none ?_ ?_ ?_ ?_
              · rw [List.cons_append]; exact m2_none_second ((hvc vh (by simp)).2.2.2.1) _
              · rw [List.cons_append]; exact m3_none_second ((hvc vh (by simp)).2.2.2.1) _
              · rw [List.cons_append]; exact m4_none_second ((hvc vh (by simp)).2.2.2.1) _
              · exact m5_none_head (by decide) _
            · rcases suffix_append_split hs7 with ⟨c0, a2, hsufv, rfl⟩ | hs8
              · -- positions inside the value
                have hmem : ∀ x ∈ c0 :: a2, x ∈ vh :: vt := fun x hx => hsufv.subset hx
                refine cleanOK_of_none ?_ ?_ ?_ ?_
                · rw [List.cons_append]; exact m2_none_head ((hvc c0 (hmem c0 (by simp))).1) _
                · rw [List.cons_append]; exact m3_none_head ((hvc c0 (hmem c0 (by simp))).1) _
                · rw [List.cons_append]; exact m4_none_head ((hvc c0 (hmem c0 (by simp))).1) _
                · exact m5_none_seg (c0 :: a2) qc _
                    (fun x hx => (hvc x (hmem x hx)).2.2.2.1) (by decide) (by decide)
              · rcases List.suffix_cons_iff.mp hs8 with rfl | hs9
                · -- the value-closing quote position
                  subst hBeq
                  exact cleanOK_of_none (m2_none_second hcB1 _) (m3_none_second hcB1 _)
                    (m4_none_second hcB1 _) (m5_none_head (by decide) _)
                · exact hB s hs9

/-- `CleanOK` at every suffix of the rendered members followed by the closing
brace. -/
theorem cleanOK_members (kvs : List (List Char × List Char)) (hg : goodKVs kvs) :
    ∀ s, s <:+ renderMembers kvs ++ [rb] → CleanOK s := by
  induction kvs with
  | nil =>
    intro s hs
    simp only [renderMembers, List.nil_append] at hs
    rcases List.suffix_cons_iff.mp hs with rfl | hs2
    · exact cleanOK_of_none (by decide) (by decide) (by decide) (by decide)
    · rw [List.suffix_nil.mp hs2]
      exact cleanOK_of_none (by decide) (by decide) (by decide) (by decide)
  | cons p rest ih =>
    obtain ⟨k, v⟩ := p
    have hkv := hg (k, v) (by simp)
    cases rest with
    | nil =>
      intro s hs
      simp only [renderMembers] at hs
      refine cleanOK_pair_seg k v [rb] hkv.1 hkv.2 ?_ rb [] rfl (by decide) s hs
      intro s2 hs2
      rcases List.suffix_cons_iff.mp hs2 with rfl | h3
      · exact cleanOK_of_none (by decide) (by decide) (by decide) (by decide)
      · rw [List.suffix_nil.mp h3]
        exact cleanOK_of_none (by decide) (by decide) (by decide) (by decide)
    | cons q rest2 =>
      intro s hs
      simp only [renderMembers] at hs
      rw [List.append_assoc] at hs
      refine cleanOK_pair_seg k v (',' :: ' ' :: (renderMembers (q :: rest2) ++ [rb]))
        hkv.1 hkv.2 ?_ ',' _ rfl (by decide) s (by simpa using hs)
      intro s2 hs2
      rcases List.suffix_cons_iff.mp hs2 with rfl | hs3
      · exact cleanOK_of_none (m2_none_head (by decide) _) (m3_none_head (by decide) _)
          (m4_none_head (by decide) _) (m5_none_head (by decide) _)
      · rcases List.suffix_cons_iff.mp hs3 with rfl | hs4
        · exact cleanOK_of_none (m2_none_head (by decide) _) (m3_none_head (by decide) _)
            (m4_none_head (by decide) _) (m5_none_head (by decide) _)
        · exact ih (fun p hp => hg p (by simp [hp])) s2 hs4

/-- The rendered members of a well-formed block contain no apostrophe. -/
theorem renderMembers_no_ap (kvs : List (List Char × List Char)) (hg : goodKVs kvs) :
    ∀ c ∈ renderMembers kvs, c ≠ ap := by
  induction kvs with
  | nil => simp [renderMembers]
  | cons p rest ih =>
    obtain ⟨k, v⟩ := p
    have hkv := hg (k, v) (by simp)
    have hkap : ∀ c ∈ k, c ≠ ap := fun c hc => isW_ne (hkv.1.2 c hc).1 (by decide)
    have hvap : ∀ c ∈ v, c ≠ ap := fun c hc => (hkv.2.2 c hc).2.1
    cases rest with
    | nil =>
      simp only [renderMembers, renderPair, List.forall_mem_cons, List.forall_mem_append,
        List.forall_mem_singleton]
      exact ⟨by decide, hkap, by decide, by decide, by decide, by decide, hvap, by decide⟩
    | cons q rest2 =>
      have hrest : ∀ c ∈ renderMembers (q :: rest2), c ≠ ap :=
        ih (fun p hp => hg p (by simp [hp]))
      simp only [renderMembers, renderPair, List.forall_mem_cons, List.forall_mem_append,
        List.forall_mem_singleton]
      exact ⟨⟨by decide, hkap, by decide, by decide, by decide, by decide, hvap, by decide⟩,
        by decide, by decide, hrest⟩

/-- On a well-formed canonical block the whole repair cascade is the
identity. -/
theorem cleanParams_id (kvs : List (List Char × List Char)) (hg : goodKVs kvs) :
    cleanParams (renderObj kvs) = renderObj kvs := by
  have hsuf : ∀ s, s <:+ renderObj kvs → CleanOK s := by
    intro s hs
    have hs1 : s <:+ lb :: (renderMembers kvs ++ [rb]) := by simpa [renderObj] using hs
    rcases List.suffix_cons_iff.mp hs1 with rfl | hs2
    · exact cleanOK_of_none (m2_none_head (by decide) _) (m3_none_head (by decide) _)
        (m4_none_head (by decide) _) (m5_none_head (by decide) _)
    · exact cleanOK_members kvs hg s hs2
  have hap : ∀ c ∈ renderObj kvs, c ≠ ap := by
    intro c hc
    simp only [renderObj, List.mem_cons, List.mem_append, List.mem_singleton] at hc
    rcases hc with rfl | hc | rfl | h0
    · decide
    · exact renderMembers_no_ap kvs hg c hc
    · decide
    · simp at h0
  unfold cleanParams rewriteScan
  rw [replQuotes_id hap]
  rw [rewriteScanF_id_of_none m2 _ _ (fun s hs => (hsuf s hs).1)]
  rw [rewriteScanF_id_of_none m3 _ _ (fun s hs => (hsuf s hs).2.1)]
  rw [rewriteScanF_id_of_take m4 _ _ (fun s hs => (hsuf s hs).2.2.1)]
  exact rewriteScanF_id_of_none m5 _ _ (fun s hs => (hsuf s hs).2.2.2)

/-! ### Direct decoding of canonical blocks -/

theorem skipWs_notws {c : Char} (h : isJWs c = false) (t : List Char) :
    skipWs (c :: t) = c :: t := by
  simp [skipWs, List.dropWhile_cons, h]

theorem skipWs_sp_cons {c : Char} (h : isJWs c = false) (t : List Char) :
    skipWs (' ' :: c :: t) = c :: t := by
  unfold skipWs
  rw [List.dropWhile_cons, if_pos (by decide), List.dropWhile_cons, if_neg (by simp [h])]

theorem parseJStringF_renders (a r : List Char) (fuel : Nat)
    (hfuel : a.length + 1 ≤ fuel)
    (ha : ∀ c ∈ a, c ≠ qc ∧ c ≠ bs ∧ 32 ≤ c.toNat) :
    parseJStringF fuel (a ++ qc :: r) = some (a, r) := by
  induction a generalizing fuel with
  | nil =>
    cases fuel with
    | zero => omega
    | succ fuel => simp [parseJStringF]
  | cons c a ih =>
    cases fuel with
    | zero => simp at hfuel
    | succ fuel =>
      obtain ⟨h1, h2, h3⟩ := ha c (by simp)
      rw [List.cons_append, parseJStringF, if_neg h1, if_neg h2, if_neg (by omega)]
      rw [ih fuel (by simpa using hfuel) (fun x hx => ha x (by simp [hx]))]
      rfl

theorem parseJString_renders (a r : List Char)
    (ha : ∀ c ∈ a, c ≠ qc ∧ c ≠ bs ∧ 32 ≤ c.toNat) :
    parseJString (qc :: (a ++ qc :: r)) = some (a, r) := by
  have h : parseJString (qc :: (a ++ qc :: r)) =
      parseJStringF (a ++ qc :: r).length (a ++ qc :: r) := by
    simp [parseJString]
  rw [h]
  exact parseJStringF_renders a r _ (by simp [List.length_append]) ha

theorem renderMembers_cons_head (q : List Char × List Char)
    (rest2 : List (List Char × List Char)) :
    ∃ t, renderMembers (q :: rest2) = qc :: t := by
  obtain ⟨kq, vq⟩ := q
  cases rest2 with
  | nil => exact ⟨_, rfl⟩
  | cons r rest3 => exact ⟨_, rfl⟩

theorem renderMembers_length_ge (kvs : List (List Char × List Char)) :
    kvs.length ≤ (renderMembers kvs).length := by
  induction kvs with
  | nil => simp [renderMembers]
  | cons p rest ih =>
    obtain ⟨k, v⟩ := p
    cases rest with
    | nil => simp [renderMembers, renderPair]
    | cons q rest2 =>
      simp only [renderMembers, renderPair, List.length_cons, List.length_append] at ih ⊢
      omega

theorem parseMembersF_renders (kvs : List (List Char × List Char)) (fuel : Nat)
    (hne : kvs ≠ []) (hg : goodKVs kvs) (hfuel : kvs.length ≤ fuel) :
    parseMembersF fuel (renderMembers kvs ++ [rb]) = some (kvs, [rb]) := by
  induction kvs generalizing fuel with
  | nil => exact absurd rfl hne
  | cons p rest ih =>
    obtain ⟨k, v⟩ := p
    have hkv := hg (k, v) (by simp)
    have hkchars : ∀ c ∈ k, c ≠ qc ∧ c ≠ bs ∧ 32 ≤ c.toNat := fun c hc => (hkv.1.2 c hc).2
    have hvchars : ∀ c ∈ v, c ≠ qc ∧ c ≠ bs ∧ 32 ≤ c.toNat := fun c hc =>
      ⟨(hkv.2.2 c hc).1, (hkv.2.2 c hc).2.2.1, (hkv.2.2 c hc).2.2.2.2⟩
    cases fuel with
    | zero => simp at hfuel
    | succ fuel =>
      cases rest with
      | nil =>
        rw [show renderMembers [(k, v)] ++ [rb] =
            qc :: (k ++ qc :: (':' :: ' ' :: qc :: (v ++ qc :: [rb]))) from by
          simp [renderMembers, renderPair]]
        have hkey := parseJString_renders k (':' :: ' ' :: qc :: (v ++ qc :: [rb])) hkchars
        have hval := parseJString_renders v [rb] hvchars
        simp only [parseMembersF, hkey, skipWs_notws (by decide : isJWs ':' = false),
          skipWs_sp_cons (by decide : isJWs qc = false), hval,
          skipWs_notws (by decide : isJWs rb = false)]
        simp [(by decide : rb ≠ ',')]
      | cons q rest2 =>
        obtain ⟨t, ht⟩ := renderMembers_cons_head q rest2
        rw [show renderMembers ((k, v) :: q :: rest2) ++ [rb] =
            qc :: (k ++ qc :: (':' :: ' ' :: qc ::
              (v ++ qc :: (',' :: ' ' :: (renderMembers (q :: rest2) ++ [rb]))))) from by
          simp [renderMembers, renderPair]]
        have hkey := parseJString_renders k
          (':' :: ' ' :: qc :: (v ++ qc :: (',' :: ' ' :: (renderMembers (q :: rest2) ++ [rb]))))
          hkchars
        have hval := parseJString_renders v
          (',' :: ' ' :: (renderMembers (q :: rest2) ++ [rb])) hvchars
        have hsk : skipWs (' ' :: (renderMembers (q :: rest2) ++ [rb])) =
            renderMembers (q :: rest2) ++ [rb] := by
          rw [ht, List.cons_append]
          exact skipWs_sp_cons (by decide) _
        have hrec := ih fuel (by simp) (fun p hp => hg p (by simp [hp]))
          (by simp at hfuel ⊢; omega)
        simp only [parseMembersF, hkey, skipWs_notws (by decide : isJWs ':' = false),
          skipWs_sp_cons (by decide : isJWs qc = false), hval,
          skipWs_notws (by decide : isJWs ',' = false), hsk, hrec]
        simp

theorem jsonLoads_renders (kvs : List (List Char × List Char)) (hg : goodKVs kvs) :
    jsonLoads (renderObj kvs) = some kvs := by
  cases kvs with
  | nil => decide
  | cons p rest =>
    obtain ⟨t, ht⟩ := renderMembers_cons_head p rest
    have hM : renderMembers (p :: rest) ++ [rb] = qc :: (t ++ [rb]) := by
      rw [ht, List.cons_append]
    have hskip2 : skipWs (renderMembers (p :: rest) ++ [rb]) =
        qc :: (t ++ [rb]) := by
      rw [hM]; exact skipWs_notws (by decide) _
    have hmem := parseMembersF_renders (p :: rest) ((t ++ [rb]).length + 1)
      (by simp) hg (by
        have h1 := renderMembers_length_ge (p :: rest)
        rw [ht] at h1
        simp only [List.length_cons, List.length_append] at h1 ⊢
        omega)
    rw [hM] at hmem
    rw [show renderObj (p :: rest) = lb :: (renderMembers (p :: rest) ++ [rb]) from rfl]
    simp only [jsonLoads, skipWs_notws (by decide : isJWs lb = false), hskip2, hmem,
      skipWs_notws (by decide : isJWs rb = false)]
    simp [skipWs, (by decide : qc ≠ rb)]

/-- C2 (amended): for every parameter block that is a canonically rendered flat
double-quoted JSON object whose keys are nonempty word-character runs and whose
values are nonempty and free of quotes, apostrophes, backslashes, colons and
control characters, the repair pipeline recovers a parameter object identical
to direct structured decoding of the block (and that decoding succeeds). -/
theorem wellformed_block_recovered (kvs : List (List Char × List Char)) (hg : goodKVs kvs) :
    parseToolParams (renderObj kvs) = jsonLoads (renderObj kvs) ∧
    jsonLoads (renderObj kvs) = some kvs := by
  have hj := jsonLoads_renders kvs hg
  have hc := cleanParams_id kvs hg
  refine ⟨?_, hj⟩
  simp only [parseToolParams, hc, hj]

/-- Witness for the amended C2 at the concrete block `{"niche": "cooking"}`. -/
theorem wellformed_block_recovered_witness :
    parseToolParams (renderObj [(strL "niche", strL "cooking")]) =
      jsonLoads (renderObj [(strL "niche", strL "cooking")]) ∧
    jsonLoads (renderObj [(strL "niche", strL "cooking")]) =
      some [(strL "niche", strL "cooking")] :=
  wellformed_block_recovered [(strL "niche", strL "cooking")]
    (by simp only [goodKVs, goodKey, goodVal]; decide)

end YTA

